import Mathlib

/-!
Shallow embedding of the Connect Four engine of this repository
(`game/connect_four.py`, `game/minimax.py`, `game/difficulty_levels.py`,
`game/thermal_aware_ai.py`) together with proofs about the claims of the
specification.

Conventions of the embedding:
* the numpy board `board[row][col]` becomes a total function `ℕ → ℕ → ℕ`
  (0 = empty, 1 = Player.ONE, 2 = Player.TWO); `(0,0)` is the top-left cell
  and gravity pulls pieces toward the row `rows - 1`;
* Python's `-1` sentinel of `get_next_open_row` becomes `Option ℕ`
  (`none` for `-1`);
* the float values `float('-inf')`, `float('inf')` and the integer scores
  of the search are embedded into the linear order `WithBot (WithTop ℤ)`
  (`⊥` for `-inf`, `⊤` for `inf`, all actual scores are integers);
* the effectful calls (`random.random()`, `random.shuffle`,
  `random.choice`, the temperature sensor) become explicit oracle
  parameters, and theorems quantify over every oracle outcome.
-/

namespace ConnectFour

/-- Game state of `ConnectFourGame.__init__`: board, its dimensions, the
current player (`Player.ONE = 1`, `Player.TWO = 2`), the last move and the
move counter. -/
structure GState where
  rows : ℕ
  cols : ℕ
  board : ℕ → ℕ → ℕ
  current : ℕ
  lastMove : Option (ℕ × ℕ)
  moveCount : ℕ

/-- `ConnectFourGame(rows, cols)`: zero board, Player ONE to move. -/
def newGame (rows cols : ℕ) : GState :=
  { rows := rows, cols := cols, board := fun _ _ => 0,
    current := 1, lastMove := none, moveCount := 0 }

/-- `ConnectFourGame.is_valid_move`: `0 <= col < self.cols` and the top
cell of the column is empty. The argument is an integer, as in Python. -/
def isValidMove (g : GState) (col : ℤ) : Bool :=
  decide (0 ≤ col) && decide (col < (g.cols : ℤ)) && (g.board 0 col.toNat == 0)

/-- `ConnectFourGame.get_valid_columns`: the columns of `range(cols)` that
admit a move. -/
def getValidColumns (g : GState) : List ℕ :=
  (List.range g.cols).filter (fun c => isValidMove g (c : ℤ))

/-- The loop of `ConnectFourGame.get_next_open_row`: scan
`range(rows-1, -1, -1)`, i.e. the rows `n-1, n-2, …, 0`, and return the
first empty one. -/
def openRowScan (g : GState) (col : ℕ) : ℕ → Option ℕ
  | 0 => none
  | n + 1 => if g.board n col = 0 then some n else openRowScan g col n

/-- `ConnectFourGame.get_next_open_row` (Python's `-1` is `none`). -/
def getNextOpenRow (g : GState) (col : ℕ) : Option ℕ :=
  openRowScan g col g.rows

/-- `ConnectFourGame.make_move`: validity check, lowest open row, place
the piece, record the move, flip the player. Returns the success flag
together with the state after the call (the state itself on failure: the
Python method mutates nothing before its checks). -/
def makeMove (g : GState) (col : ℤ) : Bool × GState :=
  if !isValidMove g col then (false, g)
  else
    match getNextOpenRow g col.toNat with
    | none => (false, g)
    | some row =>
      (true,
        { g with
          board := fun r c =>
            if r = row ∧ c = col.toNat then g.current else g.board r c,
          lastMove := some (row, col.toNat),
          moveCount := g.moveCount + 1,
          current := if g.current = 1 then 2 else 1 })

/-- Horizontal scan of `ConnectFourGame.check_win`. -/
def winH (g : GState) : Option ℕ :=
  (List.range g.rows).findSome? fun r =>
    (List.range (g.cols - 3)).findSome? fun c =>
      if g.board r c ≠ 0 ∧ g.board r c = g.board r (c + 1) ∧
          g.board r c = g.board r (c + 2) ∧ g.board r c = g.board r (c + 3)
      then some (g.board r c) else none

/-- Vertical scan of `ConnectFourGame.check_win` (outer loop on columns,
as in the source). -/
def winV (g : GState) : Option ℕ :=
  (List.range g.cols).findSome? fun c =>
    (List.range (g.rows - 3)).findSome? fun r =>
      if g.board r c ≠ 0 ∧ g.board r c = g.board (r + 1) c ∧
          g.board r c = g.board (r + 2) c ∧ g.board r c = g.board (r + 3) c
      then some (g.board r c) else none

/-- First diagonal scan of `ConnectFourGame.check_win`
(`board[row+i][col+i]`). -/
def winD1 (g : GState) : Option ℕ :=
  (List.range (g.rows - 3)).findSome? fun r =>
    (List.range (g.cols - 3)).findSome? fun c =>
      if g.board r c ≠ 0 ∧ g.board r c = g.board (r + 1) (c + 1) ∧
          g.board r c = g.board (r + 2) (c + 2) ∧
          g.board r c = g.board (r + 3) (c + 3)
      then some (g.board r c) else none

/-- Second diagonal scan of `ConnectFourGame.check_win`
(`board[row-i][col+i]`, rows from `range(3, rows)`). -/
def winD2 (g : GState) : Option ℕ :=
  (List.range' 3 (g.rows - 3)).findSome? fun r =>
    (List.range (g.cols - 3)).findSome? fun c =>
      if g.board r c ≠ 0 ∧ g.board r c = g.board (r - 1) (c + 1) ∧
          g.board r c = g.board (r - 2) (c + 2) ∧
          g.board r c = g.board (r - 3) (c + 3)
      then some (g.board r c) else none

/-- `ConnectFourGame.check_win`: the four scans in source order. -/
def checkWin (g : GState) : Option ℕ :=
  match winH g with
  | some w => some w
  | none =>
    match winV g with
    | some w => some w
    | none =>
      match winD1 g with
      | some w => some w
      | none => winD2 g

/-- `ConnectFourGame.is_draw`: the move counter filled the board. -/
def isDraw (g : GState) : Bool :=
  g.moveCount == g.rows * g.cols

/-- `ConnectFourGame.is_game_over`: a win was detected or the game is a
draw. -/
def isGameOver (g : GState) : Bool :=
  (checkWin g).isSome || isDraw g

/-- `ConnectFourGame.copy`: a fresh object carrying the same values. -/
def copyGame (g : GState) : GState :=
  { rows := g.rows, cols := g.cols, board := g.board,
    current := g.current, lastMove := g.lastMove, moveCount := g.moveCount }

/-- `ConnectFourGame.reset`: back to the initial state, keeping the
dimensions. -/
def resetGame (g : GState) : GState :=
  { g with
    board := fun _ _ => 0
    current := 1
    lastMove := none
    moveCount := 0 }

/-! ## The minimax engine (`game/minimax.py`) -/

/-- Score domain of the search: the integer scores together with
`float('-inf') = ⊥` and `float('inf') = ⊤`. -/
abbrev XS := WithBot (WithTop ℤ)

/-- An integer score seen inside the score domain. -/
def toXS (z : ℤ) : XS := ((z : WithTop ℤ) : XS)

/-- `MinimaxEngine._get_center_prioritized_columns`: the center column
first, then alternating left and right neighbours. -/
def centerPrioritizedColumns (cols : ℕ) : List ℕ :=
  let center := cols / 2
  (List.range' 1 (cols / 2)).foldl
    (fun res i =>
      (res ++ if i ≤ center then [center - i] else []) ++
        if center + i < cols then [center + i] else [])
    [center]

/-- `self.column_order` of every engine: computed once for 7 columns. -/
def columnOrder : List ℕ := centerPrioritizedColumns 7

/-- `MinimaxEngine._evaluate_window`. -/
def evaluateWindow (w : List ℕ) (player : ℕ) : ℤ :=
  let opponent := if player = 2 then 1 else 2
  let playerCount := w.count player
  let emptyCount := w.count 0
  let opponentCount := w.count opponent
  if playerCount = 4 then 100
  else if playerCount = 3 ∧ emptyCount = 1 then 5
  else if playerCount = 2 ∧ emptyCount = 2 then 2
  else if opponentCount = 3 ∧ emptyCount = 1 then -80
  else 0

/-- `board[row, col:col+4]`, the horizontal window at `(r, c)`. -/
def windowH (g : GState) (r c : ℕ) : List ℕ :=
  (List.range 4).map fun i => g.board r (c + i)

/-- `[board[row+i][col] for i in range(4)]`, the vertical window. -/
def windowV (g : GState) (r c : ℕ) : List ℕ :=
  (List.range 4).map fun i => g.board (r + i) c

/-- `[board[row+i][col+i] for i in range(4)]`, the first diagonal. -/
def windowD1 (g : GState) (r c : ℕ) : List ℕ :=
  (List.range 4).map fun i => g.board (r + i) (c + i)

/-- `[board[row-i][col+i] for i in range(4)]`, the second diagonal. -/
def windowD2 (g : GState) (r c : ℕ) : List ℕ :=
  (List.range 4).map fun i => g.board (r - i) (c + i)

/-- Pieces of `player` in the center column, as counted by
`_score_position`. -/
def centerCount (g : GState) (player : ℕ) : ℕ :=
  ((List.range g.rows).filter fun r => g.board r (g.cols / 2) == player).length

/-- `MinimaxEngine._score_position`, parameterized by
`self._evaluate_window` (the difficulty subclasses override the window
scoring but inherit this scan). -/
def scorePositionWith (evalW : List ℕ → ℕ → ℤ) (g : GState) (player : ℕ) :
    ℤ :=
  (centerCount g player : ℤ) * 3 +
    ((List.range g.rows).map fun r =>
      ((List.range (g.cols - 3)).map fun c =>
        evalW (windowH g r c) player).sum).sum +
    ((List.range g.cols).map fun c =>
      ((List.range (g.rows - 3)).map fun r =>
        evalW (windowV g r c) player).sum).sum +
    ((List.range (g.rows - 3)).map fun r =>
      ((List.range (g.cols - 3)).map fun c =>
        evalW (windowD1 g r c) player).sum).sum +
    ((List.range' 3 (g.rows - 3)).map fun r =>
      ((List.range (g.cols - 3)).map fun c =>
        evalW (windowD2 g r c) player).sum).sum

/-- `MinimaxEngine._score_position` with its own `_evaluate_window`. -/
def scorePositionFull (g : GState) (player : ℕ) : ℤ :=
  scorePositionWith evaluateWindow g player

/-- `DepthLimitedMinimax._score_position`: only the three-with-one-empty
horizontal and vertical windows, 5 points each. -/
def scorePositionSimple (g : GState) (player : ℕ) : ℤ :=
  ((List.range g.rows).map fun r =>
    ((List.range (g.cols - 3)).map fun c =>
      if (windowH g r c).count player = 3 ∧ (windowH g r c).count 0 = 1
      then (5 : ℤ) else 0).sum).sum +
  ((List.range g.cols).map fun c =>
    ((List.range (g.rows - 3)).map fun r =>
      if (windowV g r c).count player = 3 ∧ (windowV g r c).count 0 = 1
      then (5 : ℤ) else 0).sum).sum

/-- The maximizing loop of `MinimaxEngine._minimax`: walk `column_order`,
skip the columns not in `valid_moves`, evaluate the child with the
current `(alpha, beta)` window, accumulate `max_score` and `alpha`, and
break early when `beta <= alpha`. `f` is the recursive evaluation at
depth `depth - 1`. -/
def abMax (f : GState → XS → XS → XS) (g : GState) (valid : List ℕ) :
    List ℕ → XS → XS → XS → XS
  | [], maxScore, _, _ => maxScore
  | c :: rest, maxScore, alpha, beta =>
    if c ∈ valid then
      let s := f (makeMove g (c : ℤ)).2 alpha beta
      let maxScore' := max maxScore s
      let alpha' := max alpha s
      if beta ≤ alpha' then maxScore'
      else abMax f g valid rest maxScore' alpha' beta
    else abMax f g valid rest maxScore alpha beta

/-- The minimizing loop of `MinimaxEngine._minimax`. -/
def abMin (f : GState → XS → XS → XS) (g : GState) (valid : List ℕ) :
    List ℕ → XS → XS → XS → XS
  | [], minScore, _, _ => minScore
  | c :: rest, minScore, alpha, beta =>
    if c ∈ valid then
      let s := f (makeMove g (c : ℤ)).2 alpha beta
      let minScore' := min minScore s
      let beta' := min beta s
      if beta' ≤ alpha then minScore'
      else abMin f g valid rest minScore' alpha beta'
    else abMin f g valid rest minScore alpha beta

/-- `MinimaxEngine._minimax`, parameterized by `self._score_position`.
Terminal checks in source order: a detected winner is compared with
`3 - game.current_player.value` (the opponent of the side to move, that
is, the player who just moved) and scores `±1000000`; then the draw test;
then the depth-0 heuristic evaluation from the perspective of
`Player.TWO` at maximizing nodes and `Player.ONE` otherwise. -/
def minimax (score : GState → ℕ → ℤ) : ℕ → GState → Bool → XS → XS → XS
  | d, g, isMax, alpha, beta =>
    match checkWin g with
    | some w => if (w : ℤ) = 3 - (g.current : ℤ) then toXS 1000000
                else toXS (-1000000)
    | none =>
      if isDraw g then toXS 0
      else
        match d with
        | 0 => toXS (score g (if isMax then 2 else 1))
        | d + 1 =>
          if isMax then
            abMax (fun s a b => minimax score d s false a b) g
              (getValidColumns g) columnOrder ⊥ alpha beta
          else
            abMin (fun s a b => minimax score d s true a b) g
              (getValidColumns g) columnOrder ⊤ alpha beta

/-- The loop of `MinimaxEngine.find_best_move`: walk `column_order`
keeping the best score; a move after which `check_win()` equals
`Player(3 - game.current_player.value)` is returned on the spot. -/
def fbmLoop (score : GState → ℕ → ℤ) (maxDepth : ℕ) (g : GState)
    (valid : List ℕ) : List ℕ → XS → ℤ → ℤ
  | [], _, best => best
  | c :: rest, bestScore, best =>
    if c ∈ valid then
      let s := (makeMove g (c : ℤ)).2
      if checkWin s == some (3 - g.current) then (c : ℤ)
      else
        let sc := minimax score (maxDepth - 1) s false ⊥ ⊤
        if bestScore < sc then fbmLoop score maxDepth g valid rest sc (c : ℤ)
        else fbmLoop score maxDepth g valid rest bestScore best
    else fbmLoop score maxDepth g valid rest bestScore best

/-- `MinimaxEngine.find_best_move`. `shuffled` is the outcome of
`random.shuffle(valid_moves)`: theorems quantify over every permutation
of `get_valid_columns`. The default best move is its head. -/
def findBestMove (score : GState → ℕ → ℤ) (maxDepth : ℕ) (g : GState)
    (shuffled : List ℕ) : ℤ :=
  match shuffled with
  | [] => -1
  | c0 :: _ => fbmLoop score maxDepth g shuffled columnOrder ⊥ (c0 : ℤ)

/-! ## Unpruned minimax (modelled from the spec for the
pruning-equivalence property) -/

/-- The maximizing loop of the unpruned minimax: same walk as the pruned
loop, with no window and no break. `p` evaluates a child. -/
def plainMaxLoop (p : GState → XS) (g : GState) (valid : List ℕ) :
    List ℕ → XS → XS
  | [], m => m
  | c :: rest, m =>
    if c ∈ valid then
      plainMaxLoop p g valid rest (max m (p (makeMove g (c : ℤ)).2))
    else plainMaxLoop p g valid rest m

/-- The minimizing loop of the unpruned minimax. -/
def plainMinLoop (p : GState → XS) (g : GState) (valid : List ℕ) :
    List ℕ → XS → XS
  | [], m => m
  | c :: rest, m =>
    if c ∈ valid then
      plainMinLoop p g valid rest (min m (p (makeMove g (c : ℤ)).2))
    else plainMinLoop p g valid rest m

/-- Full (unpruned) minimax, the reference of the specification's
pruning-equivalence property: identical to `minimax` — same terminal
scoring, same leaf evaluation, same move enumeration — except that no
alpha/beta window is threaded and no branch is ever cut. -/
def minimaxPlain (score : GState → ℕ → ℤ) : ℕ → GState → Bool → XS
  | d, g, isMax =>
    match checkWin g with
    | some w => if (w : ℤ) = 3 - (g.current : ℤ) then toXS 1000000
                else toXS (-1000000)
    | none =>
      if isDraw g then toXS 0
      else
        match d with
        | 0 => toXS (score g (if isMax then 2 else 1))
        | d + 1 =>
          if isMax then
            plainMaxLoop (fun s => minimaxPlain score d s false) g
              (getValidColumns g) columnOrder ⊥
          else
            plainMinLoop (fun s => minimaxPlain score d s true) g
              (getValidColumns g) columnOrder ⊤

/-! ## Difficulty variants (`game/difficulty_levels.py`) -/

/-- `opponent = Player.ONE if game.current_player == Player.TWO else
Player.TWO`, as computed in the difficulty classes. -/
def opponentOf (g : GState) : ℕ :=
  if g.current = 2 then 1 else 2

/-- `game_copy.current_player = p` before a simulated move. -/
def setCurrent (g : GState) (p : ℕ) : GState :=
  { g with current := p }

/-- The immediate-win test shared by the root loops: after playing `c`,
`check_win()` is compared with `Player(3 - game.current_player.value)`
where `game` is the state before the move. -/
def winningMoveCheck (g : GState) (c : ℕ) : Bool :=
  checkWin (makeMove g (c : ℤ)).2 == some (3 - g.current)

/-- The `for col in valid_moves` immediate-win loops of
`EasyAI/MediumAI/HardAI.find_best_move`. -/
def findWinningMove (g : GState) (valid : List ℕ) : Option ℕ :=
  valid.find? fun c => winningMoveCheck g c

/-- The block loops of `MediumAI`/`HardAI.find_best_move`: simulate the
opponent playing each column and return the first one the opponent would
win with. -/
def findBlockingMove (g : GState) (opp : ℕ) (valid : List ℕ) : Option ℕ :=
  valid.find? fun c =>
    checkWin (makeMove (setCurrent g opp) (c : ℤ)).2 == some opp

/-- `EasyAI._evaluate_window`. -/
def easyEvaluateWindow (w : List ℕ) (player : ℕ) : ℤ :=
  let opponent := if player = 2 then 1 else 2
  let playerCount := w.count player
  let emptyCount := w.count 0
  if playerCount = 4 then 100
  else if playerCount = 3 ∧ emptyCount = 1 then 7
  else if playerCount = 2 ∧ emptyCount = 2 then 3
  else
    let opponentCount := w.count opponent
    if opponentCount = 3 ∧ emptyCount = 1 then -15
    else if opponentCount = 2 ∧ emptyCount = 2 then -1
    else 0

/-- `EasyAI` inherits `_score_position` with its own `_evaluate_window`. -/
def scorePositionEasy (g : GState) (player : ℕ) : ℤ :=
  scorePositionWith easyEvaluateWindow g player

/-- The block loop of `EasyAI.find_best_move`: each column the opponent
would win with draws one `random.random()` and is returned when the draw
is below `0.8`. The second component counts the numbers drawn. -/
def easyBlockLoop (g : GState) (opp : ℕ) (rolls : ℕ → ℚ) :
    List ℕ → ℕ → Option ℕ × ℕ
  | [], k => (none, k)
  | c :: rest, k =>
    if checkWin (makeMove (setCurrent g opp) (c : ℤ)).2 == some opp then
      if rolls k < mkRat 4 5 then (some c, k + 1)
      else easyBlockLoop g opp rolls rest (k + 1)
    else easyBlockLoop g opp rolls rest k

/-- `EasyAI.find_best_move` (search depth 2). `rolls` is the stream of
`random.random()` draws, `choiceIdx` selects the `random.choice` outcome,
`shuffled` feeds the inherited `find_best_move`. -/
def easyFindBestMove (g : GState) (rolls : ℕ → ℚ) (choiceIdx : ℕ)
    (shuffled : List ℕ) : ℤ :=
  let validMoves := getValidColumns g
  if validMoves.isEmpty then -1
  else
    match findWinningMove g validMoves with
    | some c => (c : ℤ)
    | none =>
      match easyBlockLoop g (opponentOf g) rolls validMoves 0 with
      | (some c, _) => (c : ℤ)
      | (none, k) =>
        if rolls k < mkRat 1 5 then
          ((validMoves.getD (choiceIdx % validMoves.length) 0 : ℕ) : ℤ)
        else findBestMove scorePositionEasy 2 g shuffled

/-- `MediumAI._evaluate_window`. -/
def mediumEvaluateWindow (w : List ℕ) (player : ℕ) : ℤ :=
  let opponent := if player = 2 then 1 else 2
  let playerCount := w.count player
  let emptyCount := w.count 0
  let opponentCount := w.count opponent
  if playerCount = 4 then 100
  else if playerCount = 3 ∧ emptyCount = 1 then 7
  else if playerCount = 2 ∧ emptyCount = 2 then 3
  else if opponentCount = 3 ∧ emptyCount = 1 then -30
  else if opponentCount = 2 ∧ emptyCount = 2 then -2
  else 0

/-- `MediumAI._score_position`: the inherited scan with medium windows
plus a second center-column bonus. -/
def scorePositionMedium (g : GState) (player : ℕ) : ℤ :=
  scorePositionWith mediumEvaluateWindow g player +
    (centerCount g player : ℤ) * 3

/-- `MediumAI._creates_trap`: at least two columns in which `player`
could immediately win in the given state. -/
def createsTrap (g : GState) (player : ℕ) : Bool :=
  2 ≤ ((getValidColumns g).filter fun c =>
    let m := makeMove (setCurrent g player) (c : ℤ)
    m.1 && (checkWin m.2 == some player)).length

/-- The trap loop of `MediumAI.find_best_move`: first column whose move
lets `Player(3 - game.current_player.value)` create a trap. -/
def mediumTrapLoop (g : GState) (valid : List ℕ) : Option ℕ :=
  valid.find? fun c => createsTrap (makeMove g (c : ℤ)).2 (3 - g.current)

/-- One iteration of the `MediumAI` "blocking moves" loop: after our move
in `c`, if some opponent reply would satisfy
`check_win() == Player(game.current_player.value)`, remove `c` from the
accumulated list. -/
def mediumFilterStep (g : GState) (vm : List ℕ) (c : ℕ) : List ℕ :=
  let gc := (makeMove g (c : ℤ)).2
  if isGameOver gc then vm
  else if (getValidColumns gc).any
      (fun oc => checkWin (makeMove gc (oc : ℤ)).2 == some g.current) then
    vm.filter (· ≠ c)
  else vm

/-- The `MediumAI` "blocking moves" loop: the Python `for` iterates the
original `valid_moves` list while the name is rebound to filtered
copies. -/
def mediumFilteredMoves (g : GState) (valid : List ℕ) : List ℕ :=
  valid.foldl (mediumFilterStep g) valid

/-- `MediumAI.find_best_move` (search depth 4). `roll` is the one
`random.random()` draw of the suboptimal branch, `shuffled` feeds the
inherited `find_best_move`. -/
def mediumFindBestMove (g : GState) (roll : ℚ) (shuffled : List ℕ) : ℤ :=
  let validMoves := getValidColumns g
  if validMoves.isEmpty then -1
  else
    match findWinningMove g validMoves with
    | some c => (c : ℤ)
    | none =>
      match findBlockingMove g (opponentOf g) validMoves with
      | some c => (c : ℤ)
      | none =>
        match mediumTrapLoop g validMoves with
        | some c => (c : ℤ)
        | none =>
          let filtered := mediumFilteredMoves g validMoves
          if roll < mkRat 2 25 ∧ 1 < filtered.length then
            let moveScores : List (ℕ × XS) := filtered.map fun c =>
              (c, minimax scorePositionMedium 3 (makeMove g (c : ℤ)).2
                false ⊥ ⊤)
            let sorted := moveScores.mergeSort fun x y => decide (y.2 ≤ x.2)
            if 2 ≤ sorted.length then (((sorted.getD 1 (0, ⊥)).1 : ℕ) : ℤ)
            else findBestMove scorePositionMedium 4 g shuffled
          else findBestMove scorePositionMedium 4 g shuffled

/-- `HardAI._evaluate_window`. -/
def hardEvaluateWindow (w : List ℕ) (player : ℕ) : ℤ :=
  let opponent := if player = 2 then 1 else 2
  let playerCount := w.count player
  let emptyCount := w.count 0
  let opponentCount := w.count opponent
  if playerCount = 4 then 100
  else if playerCount = 3 ∧ emptyCount = 1 then 15
  else if playerCount = 2 ∧ emptyCount = 2 then 5
  else if opponentCount = 3 ∧ emptyCount = 1 then -90
  else if opponentCount = 2 ∧ emptyCount = 2 then -5
  else 0

/-- Number of two-with-two-empty sub-windows of a clipped window, as in
the `HardAI._score_position` trap scan. -/
def hardSubThreats (w : List ℕ) (player : ℕ) : ℕ :=
  if 4 ≤ w.length then
    ((List.range (w.length - 3)).filter fun i =>
      ((w.drop i).take 4).count player = 2 ∧
        ((w.drop i).take 4).count 0 = 2).length
  else 0

/-- The four clipped windows around `(r, c)` of the `HardAI` trap scan
and their total threat count. -/
def hardThreatCount (g : GState) (player : ℕ) (r c : ℕ) : ℕ :=
  let window1 := (List.range' (c - 3) (min g.cols (c + 4) - (c - 3))).map
    fun cc => g.board r cc
  let window2 := (List.range' (r - 3) (min g.rows (r + 4) - (r - 3))).map
    fun rr => g.board rr c
  let window3 := (((List.range 7).map fun j => (j : ℤ) - 3).filter fun i =>
    0 ≤ (r : ℤ) + i ∧ (r : ℤ) + i < (g.rows : ℤ) ∧
      0 ≤ (c : ℤ) + i ∧ (c : ℤ) + i < (g.cols : ℤ)).map
    fun i => g.board ((r : ℤ) + i).toNat ((c : ℤ) + i).toNat
  let window4 := (((List.range 7).map fun j => (j : ℤ) - 3).filter fun i =>
    0 ≤ (r : ℤ) - i ∧ (r : ℤ) - i < (g.rows : ℤ) ∧
      0 ≤ (c : ℤ) + i ∧ (c : ℤ) + i < (g.cols : ℤ)).map
    fun i => g.board ((r : ℤ) - i).toNat ((c : ℤ) + i).toNat
  hardSubThreats window1 player + hardSubThreats window2 player +
    hardSubThreats window3 player + hardSubThreats window4 player

/-- `HardAI._score_position`: center bonus of 5 per piece, the four
window scans with hard weights, and 20 points per empty cell enabling at
least two threats. -/
def scorePositionHard (g : GState) (player : ℕ) : ℤ :=
  (centerCount g player : ℤ) * 5 +
    ((List.range g.rows).map fun r =>
      ((List.range (g.cols - 3)).map fun c =>
        hardEvaluateWindow (windowH g r c) player).sum).sum +
    ((List.range g.cols).map fun c =>
      ((List.range (g.rows - 3)).map fun r =>
        hardEvaluateWindow (windowV g r c) player).sum).sum +
    ((List.range (g.rows - 3)).map fun r =>
      ((List.range (g.cols - 3)).map fun c =>
        hardEvaluateWindow (windowD1 g r c) player).sum).sum +
    ((List.range' 3 (g.rows - 3)).map fun r =>
      ((List.range (g.cols - 3)).map fun c =>
        hardEvaluateWindow (windowD2 g r c) player).sum).sum +
    ((List.range g.rows).map fun r =>
      ((List.range g.cols).map fun c =>
        if g.board r c = 0 ∧ 2 ≤ hardThreatCount g player r c then (20 : ℤ)
        else 0).sum).sum

/-- The third-priority loop of `HardAI.find_best_move`: after our move in
`c`, count the columns of `game.get_valid_columns()` (the state before
the move, as in the source) in which `Player(3 - current)` could then win
immediately; two or more is a "fork". -/
def hardForkCheck (g : GState) (c : ℕ) : Bool :=
  let gc := (makeMove g (c : ℤ)).2
  2 ≤ ((getValidColumns g).filter fun nc =>
    let m := makeMove (setCurrent gc (3 - g.current)) (nc : ℤ)
    m.1 && (checkWin m.2 == some (3 - g.current))).length

/-- The inner double loop of the fourth `HardAI` priority: an opponent
reply `oc` to our move after which the opponent has two or more
immediate wins; returned only when `oc` is itself in `valid_moves`. -/
def hardBlockForkInner (gc : GState) (opp : ℕ) (validMoves : List ℕ) :
    Option ℕ :=
  (getValidColumns gc).findSome? fun (oc : ℕ) =>
    let fg := makeMove (setCurrent gc opp) (oc : ℤ)
    if fg.1 then
      if 2 ≤ ((getValidColumns fg.2).filter fun tc =>
          let tg := makeMove (setCurrent fg.2 opp) (tc : ℤ)
          tg.1 && (checkWin tg.2 == some opp)).length ∧ oc ∈ validMoves then
        some oc
      else none
    else none

/-- `HardAI.find_best_move` (search depth 6): immediate win, block,
fork, block-fork, then the scored-and-sorted minimax loop; `shuffled`
feeds the (unreachable) inherited fallback. -/
def hardFindBestMove (g : GState) (shuffled : List ℕ) : ℤ :=
  let validMoves := getValidColumns g
  if validMoves.isEmpty then -1
  else
    match findWinningMove g validMoves with
    | some c => (c : ℤ)
    | none =>
      let opp := opponentOf g
      match findBlockingMove g opp validMoves with
      | some c => (c : ℤ)
      | none =>
        match validMoves.find? (fun c => hardForkCheck g c) with
        | some c => (c : ℤ)
        | none =>
          match validMoves.findSome? (fun c =>
              hardBlockForkInner (makeMove g (c : ℤ)).2 opp validMoves) with
          | some oc => (oc : ℤ)
          | none =>
            let moveScores : List (ℕ × XS) := validMoves.map fun c =>
              (c, minimax scorePositionHard 5 (makeMove g (c : ℤ)).2
                false ⊥ ⊤)
            let sorted := moveScores.mergeSort fun x y =>
              decide (y.2 ≤ x.2)
            match sorted with
            | (c, _) :: _ => (c : ℤ)
            | [] => findBestMove scorePositionHard 6 g shuffled

/-! ## Thermal monitor and selector (`game/thermal_aware_ai.py`) -/

/-- `ThermalMonitor`: the configured threshold. -/
structure ThermalMonitor where
  highTempThreshold : ℚ

/-- `ThermalMonitor.is_overheating`: the sampled temperature is strictly
above the threshold (`>` in the source). `temp` is the value returned by
`get_cpu_temperature()`. -/
def isOverheating (m : ThermalMonitor) (temp : ℚ) : Bool :=
  decide (m.highTempThreshold < temp)

/-- A search engine as configured by `ThermalAwareAI.__init__`: a depth
and a position evaluator. -/
structure Engine where
  maxDepth : ℕ
  score : GState → ℕ → ℤ

/-- `ThermalAwareAI.__init__`: the monitor, a standard `MinimaxEngine`
and a reduced `DepthLimitedMinimax`. -/
structure ThermalAwareAI where
  thermalMonitor : ThermalMonitor
  standardAI : Engine
  limitedAI : Engine

/-- The `ThermalAwareAI` constructor with its configuration parameters. -/
def mkThermalAwareAI (thr : ℚ) (standardDepth limitedDepth : ℕ) :
    ThermalAwareAI :=
  { thermalMonitor := { highTempThreshold := thr },
    standardAI := { maxDepth := standardDepth, score := scorePositionFull },
    limitedAI := { maxDepth := limitedDepth, score := scorePositionSimple } }

/-- One effectful `is_overheating()` call: the `n`-th sensor reading is
consumed and the query counter advances. -/
def isOverheatingQuery (m : ThermalMonitor) (temps : ℕ → ℚ) (n : ℕ) :
    Bool × ℕ :=
  (isOverheating m (temps n), n + 1)

/-- `ThermalAwareAI.select_strategy`: one monitor query, then the limited
or the standard engine. -/
def selectStrategy (ai : ThermalAwareAI) (temps : ℕ → ℚ) (n : ℕ) :
    Engine × ℕ :=
  match isOverheatingQuery ai.thermalMonitor temps n with
  | (hot, n') => (if hot then ai.limitedAI else ai.standardAI, n')

/-- `find_best_move` of a configured engine. -/
def engineFindBestMove (e : Engine) (g : GState) (shuffled : List ℕ) : ℤ :=
  findBestMove e.score e.maxDepth g shuffled

/-- `ThermalAwareAI.find_best_move`: select a strategy, then delegate the
whole move computation to it. -/
def thermalFindBestMove (ai : ThermalAwareAI) (temps : ℕ → ℚ) (n : ℕ)
    (g : GState) (shuffled : List ℕ) : ℤ × ℕ :=
  match selectStrategy ai temps n with
  | (strategy, n') => (engineFindBestMove strategy g shuffled, n')

/-! ## Reachability, invariants and concrete positions -/

/-- Apply a sequence of `make_move` calls. -/
def applyMoves (g : GState) (ms : List ℤ) : GState :=
  ms.foldl (fun s c => (makeMove s c).2) g

/-- The states produced by the engine's own operations: a fresh game and
anything obtained from a reachable state by `make_move`, `reset` or
`copy`. -/
inductive Reachable : GState → Prop
  | init (rows cols : ℕ) : Reachable (newGame rows cols)
  | move (g : GState) (col : ℤ) : Reachable g → Reachable (makeMove g col).2
  | reset (g : GState) : Reachable g → Reachable (resetGame g)
  | copy (g : GState) : Reachable g → Reachable (copyGame g)

/-- The gravity invariant: every non-empty in-bounds cell has non-empty
cells in every row below it (toward `rows - 1`) in its column. -/
def Gravity (g : GState) : Prop :=
  ∀ r c r', g.board r c ≠ 0 → r < r' → r' < g.rows → g.board r' c ≠ 0

/-- The columns whose placement completes four in a row for the side to
move (the "immediately winning columns" of the specification). -/
def winningColumns (g : GState) : List ℕ :=
  (getValidColumns g).filter fun c =>
    checkWin (makeMove g (c : ℤ)).2 == some g.current

/-- The standard 6×7 game. -/
def g0 : GState := newGame 6 7

/-- Player ONE completes a vertical four in column 1 on the seventh move;
afterwards Player TWO is the side to move and every column is open. -/
def sLoss : GState := applyMoves g0 [1, 0, 1, 0, 1, 0, 1]

/-- Player TWO to move with the unique immediately winning column 0
(three TWO pieces in column 0) while Player ONE threatens column 6. -/
def sC1 : GState := applyMoves g0 [6, 0, 6, 0, 6, 0, 3]

/-- Player TWO completes a vertical four in column 1 on the eighth move;
afterwards Player ONE is the side to move. -/
def sWin : GState := applyMoves g0 [0, 1, 0, 1, 0, 1, 3, 1]

/-! ## Lemmas: alpha-beta pruning never changes the computed value -/

/-- The fail-soft contract of an alpha-beta value `v` against the exact
value `q` on the window `(a, b)`: a fail-low result bounds `q` from
above, a fail-high result bounds it from below, and a result inside the
window is exact. -/
def AbRel (v q a b : XS) : Prop :=
  (v ≤ a → q ≤ v) ∧ (b ≤ v → v ≤ q) ∧ (a < v → v < b → v = q)

theorem abRel_of_eq {v q a b : XS} (h : v = q) : AbRel v q a b :=
  ⟨fun _ => h ▸ le_refl v, fun _ => h.le, fun _ _ => h⟩

theorem le_abMax (f : GState → XS → XS → XS) (g : GState)
    (valid : List ℕ) :
    ∀ (cols : List ℕ) (m a b : XS), m ≤ abMax f g valid cols m a b := by
  intro cols
  induction cols with
  | nil => intro m a b; simp [abMax]
  | cons c rest ih =>
    intro m a b
    simp only [abMax]
    by_cases hc : c ∈ valid
    · rw [if_pos hc]
      by_cases hb : b ≤ max a (f (makeMove g (c : ℤ)).2 a b)
      · rw [if_pos hb]; exact le_max_left _ _
      · rw [if_neg hb]
        exact le_trans (le_max_left m _) (ih _ _ _)
    · rw [if_neg hc]; exact ih _ _ _

theorem abMin_le (f : GState → XS → XS → XS) (g : GState)
    (valid : List ℕ) :
    ∀ (cols : List ℕ) (m a b : XS), abMin f g valid cols m a b ≤ m := by
  intro cols
  induction cols with
  | nil => intro m a b; simp [abMin]
  | cons c rest ih =>
    intro m a b
    simp only [abMin]
    by_cases hc : c ∈ valid
    · rw [if_pos hc]
      by_cases hb : min b (f (makeMove g (c : ℤ)).2 a b) ≤ a
      · rw [if_pos hb]; exact min_le_left _ _
      · rw [if_neg hb]
        exact le_trans (ih _ _ _) (min_le_left m _)
    · rw [if_neg hc]; exact ih _ _ _

theorem le_plainMaxLoop (p : GState → XS) (g : GState) (valid : List ℕ) :
    ∀ (cols : List ℕ) (m : XS), m ≤ plainMaxLoop p g valid cols m := by
  intro cols
  induction cols with
  | nil => intro m; simp [plainMaxLoop]
  | cons c rest ih =>
    intro m
    simp only [plainMaxLoop]
    by_cases hc : c ∈ valid
    · rw [if_pos hc]
      exact le_trans (le_max_left m _) (ih _)
    · rw [if_neg hc]; exact ih _

theorem plainMinLoop_le (p : GState → XS) (g : GState) (valid : List ℕ) :
    ∀ (cols : List ℕ) (m : XS), plainMinLoop p g valid cols m ≤ m := by
  intro cols
  induction cols with
  | nil => intro m; simp [plainMinLoop]
  | cons c rest ih =>
    intro m
    simp only [plainMinLoop]
    by_cases hc : c ∈ valid
    · rw [if_pos hc]
      exact le_trans (ih _) (min_le_left m _)
    · rw [if_neg hc]; exact ih _

theorem plainMaxLoop_mono (p : GState → XS) (g : GState) (valid : List ℕ) :
    ∀ (cols : List ℕ) (m m' : XS), m ≤ m' →
      plainMaxLoop p g valid cols m ≤ plainMaxLoop p g valid cols m' := by
  intro cols
  induction cols with
  | nil => intro m m' h; simpa [plainMaxLoop] using h
  | cons c rest ih =>
    intro m m' h
    simp only [plainMaxLoop]
    by_cases hc : c ∈ valid
    · rw [if_pos hc, if_pos hc]
      exact ih _ _ (max_le_max h (le_refl _))
    · rw [if_neg hc, if_neg hc]; exact ih _ _ h

theorem plainMinLoop_mono (p : GState → XS) (g : GState) (valid : List ℕ) :
    ∀ (cols : List ℕ) (m m' : XS), m ≤ m' →
      plainMinLoop p g valid cols m ≤ plainMinLoop p g valid cols m' := by
  intro cols
  induction cols with
  | nil => intro m m' h; simpa [plainMinLoop] using h
  | cons c rest ih =>
    intro m m' h
    simp only [plainMinLoop]
    by_cases hc : c ∈ valid
    · rw [if_pos hc, if_pos hc]
      exact ih _ _ (min_le_min h (le_refl _))
    · rw [if_neg hc, if_neg hc]; exact ih _ _ h

theorem plainMaxLoop_eq (p : GState → XS) (g : GState) (valid : List ℕ) :
    ∀ (cols : List ℕ) (m : XS),
      plainMaxLoop p g valid cols m =
        max m (plainMaxLoop p g valid cols ⊥) := by
  intro cols
  induction cols with
  | nil => intro m; simp [plainMaxLoop]
  | cons c rest ih =>
    intro m
    simp only [plainMaxLoop]
    by_cases hc : c ∈ valid
    · rw [if_pos hc, if_pos hc, ih (max m _), ih (max ⊥ _)]
      rw [bot_sup_eq, ← max_assoc]
    · rw [if_neg hc, if_neg hc]; exact ih m

theorem plainMinLoop_eq (p : GState → XS) (g : GState) (valid : List ℕ) :
    ∀ (cols : List ℕ) (m : XS),
      plainMinLoop p g valid cols m =
        min m (plainMinLoop p g valid cols ⊤) := by
  intro cols
  induction cols with
  | nil => intro m; simp [plainMinLoop]
  | cons c rest ih =>
    intro m
    simp only [plainMinLoop]
    by_cases hc : c ∈ valid
    · rw [if_pos hc, if_pos hc, ih (min m _), ih (min ⊤ _)]
      rw [top_inf_eq, ← min_assoc]
    · rw [if_neg hc, if_neg hc]; exact ih m

theorem abMax_spec (f : GState → XS → XS → XS) (p : GState → XS)
    (g : GState) (valid : List ℕ)
    (hf : ∀ s a b, a < b → AbRel (f s a b) (p s) a b) :
    ∀ (cols : List ℕ) (m a b : XS), m ≤ a → a < b →
      AbRel (abMax f g valid cols m a b)
        (plainMaxLoop p g valid cols m) a b := by
  intro cols
  induction cols with
  | nil =>
    intro m a b hm hab
    simp only [abMax, plainMaxLoop]
    exact abRel_of_eq rfl
  | cons c rest ih =>
    intro m a b hm hab
    by_cases hc : c ∈ valid
    · simp only [abMax, plainMaxLoop, if_pos hc]
      obtain ⟨hf1, hf2, hf3⟩ := hf (makeMove g (c : ℤ)).2 a b hab
      by_cases hbreak : b ≤ max a (f (makeMove g (c : ℤ)).2 a b)
      · rw [if_pos hbreak]
        have hbs : b ≤ f (makeMove g (c : ℤ)).2 a b := by
          rcases max_cases a (f (makeMove g (c : ℤ)).2 a b) with
            ⟨he, _⟩ | ⟨he, _⟩
          · rw [he] at hbreak; exact absurd hbreak (not_le.mpr hab)
          · rwa [he] at hbreak
        have hspc : f (makeMove g (c : ℤ)).2 a b ≤ p (makeMove g (c : ℤ)).2 :=
          hf2 hbs
        refine ⟨fun hva => ?_, fun _ => ?_, fun _ hvb => ?_⟩
        · exact absurd (le_trans (le_max_right _ _) hva)
            (not_le.mpr (lt_of_lt_of_le hab hbs))
        · exact le_trans (max_le_max (le_refl m) hspc)
            (le_plainMaxLoop p g valid rest _)
        · exact absurd hvb
            (not_lt.mpr (le_trans hbs (le_max_right m _)))
      · rw [if_neg hbreak]
        have hab' : max a (f (makeMove g (c : ℤ)).2 a b) < b :=
          not_le.mp hbreak
        rcases le_or_lt (f (makeMove g (c : ℤ)).2 a b) a with hsa | has
        · -- the child evaluation failed low: its exact value also lies
          -- below the unchanged alpha
          have hpcs : p (makeMove g (c : ℤ)).2 ≤ f (makeMove g (c : ℤ)).2 a b :=
            hf1 hsa
          have hasa : max a (f (makeMove g (c : ℤ)).2 a b) = a :=
            max_eq_left hsa
          rw [hasa]
          obtain ⟨ih1, ih2, ih3⟩ :=
            ih (max m (f (makeMove g (c : ℤ)).2 a b)) a b
              (max_le hm hsa) hab
          have hqq :
              plainMaxLoop p g valid rest (max m (p (makeMove g (c : ℤ)).2)) ≤
                plainMaxLoop p g valid rest
                  (max m (f (makeMove g (c : ℤ)).2 a b)) :=
            plainMaxLoop_mono p g valid rest _ _
              (max_le_max (le_refl m) hpcs)
          refine ⟨fun hva => le_trans hqq (ih1 hva), fun hbv => ?_,
            fun hav hvb => ?_⟩
          · have hvq := ih2 hbv
            rw [plainMaxLoop_eq p g valid rest
              (max m (f (makeMove g (c : ℤ)).2 a b))] at hvq
            rcases le_max_iff.mp hvq with h | h
            · exact absurd (le_trans hbv h)
                (not_le.mpr (lt_of_le_of_lt
                  (max_le hm hsa) hab))
            · rw [plainMaxLoop_eq p g valid rest
                (max m (p (makeMove g (c : ℤ)).2))]
              exact le_trans h (le_max_right _ _)
          · have hveq := ih3 hav hvb
            rw [plainMaxLoop_eq p g valid rest
              (max m (f (makeMove g (c : ℤ)).2 a b))] at hveq
            have hma : max m (f (makeMove g (c : ℤ)).2 a b) <
                abMax f g valid rest
                  (max m (f (makeMove g (c : ℤ)).2 a b)) a b :=
              lt_of_le_of_lt (max_le hm hsa) hav
            have hvF : abMax f g valid rest
                (max m (f (makeMove g (c : ℤ)).2 a b)) a b =
                plainMaxLoop p g valid rest ⊥ := by
              rcases max_cases (max m (f (makeMove g (c : ℤ)).2 a b))
                (plainMaxLoop p g valid rest ⊥) with ⟨he, _⟩ | ⟨he, _⟩
              · rw [he] at hveq; exact absurd hveq (ne_of_gt hma)
              · rw [he] at hveq; exact hveq
            rw [plainMaxLoop_eq p g valid rest
              (max m (p (makeMove g (c : ℤ)).2))]
            have h1 : max m (p (makeMove g (c : ℤ)).2) ≤
                max m (f (makeMove g (c : ℤ)).2 a b) :=
              max_le_max (le_refl m) hpcs
            have h2 : max m (p (makeMove g (c : ℤ)).2) ≤
                plainMaxLoop p g valid rest ⊥ :=
              le_trans h1 (le_of_lt (lt_of_lt_of_le hma hvF.le))
            rw [max_eq_right h2]
            exact hvF
        · have hsb : f (makeMove g (c : ℤ)).2 a b < b :=
            lt_of_le_of_lt (le_max_right a _) hab'
          have hpceq : f (makeMove g (c : ℤ)).2 a b = p (makeMove g (c : ℤ)).2 :=
            hf3 has hsb
          have hams : max a (f (makeMove g (c : ℤ)).2 a b) =
              f (makeMove g (c : ℤ)).2 a b := max_eq_right has.le
          have hmms : max m (f (makeMove g (c : ℤ)).2 a b) =
              f (makeMove g (c : ℤ)).2 a b :=
            max_eq_right (le_trans hm has.le)
          have hmpc : max m (p (makeMove g (c : ℤ)).2) =
              f (makeMove g (c : ℤ)).2 a b := by
            rw [← hpceq]; exact hmms
          rw [hams, hmms, hmpc]
          obtain ⟨ih1, ih2, ih3⟩ :=
            ih (f (makeMove g (c : ℤ)).2 a b) (f (makeMove g (c : ℤ)).2 a b)
              b (le_refl _) (lt_of_le_of_lt (le_max_right a _) hab')
          refine ⟨fun hva => ?_, fun hbv => ih2 hbv, fun hav hvb => ?_⟩
          · exact absurd (lt_of_le_of_lt
              (le_trans (le_abMax f g valid rest _ _ b) hva) has)
              (lt_irrefl _)
          · rcases le_or_lt
              (abMax f g valid rest (f (makeMove g (c : ℤ)).2 a b)
                (f (makeMove g (c : ℤ)).2 a b) b)
              (f (makeMove g (c : ℤ)).2 a b) with hvs | hsv
            · have hvs' : abMax f g valid rest (f (makeMove g (c : ℤ)).2 a b)
                  (f (makeMove g (c : ℤ)).2 a b) b =
                  f (makeMove g (c : ℤ)).2 a b :=
                le_antisymm hvs (le_abMax f g valid rest _ _ b)
              have hqv := ih1 hvs
              have hsq : f (makeMove g (c : ℤ)).2 a b ≤
                  plainMaxLoop p g valid rest (f (makeMove g (c : ℤ)).2 a b) :=
                le_plainMaxLoop p g valid rest _
              exact le_antisymm (hvs'.le.trans hsq) hqv
            · exact ih3 hsv hvb
    · simp only [abMax, plainMaxLoop, if_neg hc]
      exact ih m a b hm hab

theorem abMin_spec (f : GState → XS → XS → XS) (p : GState → XS)
    (g : GState) (valid : List ℕ)
    (hf : ∀ s a b, a < b → AbRel (f s a b) (p s) a b) :
    ∀ (cols : List ℕ) (m a b : XS), b ≤ m → a < b →
      AbRel (abMin f g valid cols m a b)
        (plainMinLoop p g valid cols m) a b := by
  intro cols
  induction cols with
  | nil =>
    intro m a b hm hab
    simp only [abMin, plainMinLoop]
    exact abRel_of_eq rfl
  | cons c rest ih =>
    intro m a b hm hab
    by_cases hc : c ∈ valid
    · simp only [abMin, plainMinLoop, if_pos hc]
      obtain ⟨hf1, hf2, hf3⟩ := hf (makeMove g (c : ℤ)).2 a b hab
      by_cases hbreak : min b (f (makeMove g (c : ℤ)).2 a b) ≤ a
      · rw [if_pos hbreak]
        have hsa : f (makeMove g (c : ℤ)).2 a b ≤ a := by
          rcases min_cases b (f (makeMove g (c : ℤ)).2 a b) with
            ⟨he, _⟩ | ⟨he, _⟩
          · rw [he] at hbreak; exact absurd hbreak (not_le.mpr hab)
          · rwa [he] at hbreak
        have hpcs : p (makeMove g (c : ℤ)).2 ≤ f (makeMove g (c : ℤ)).2 a b :=
          hf1 hsa
        refine ⟨fun _ => ?_, fun hbv => ?_, fun hav _ => ?_⟩
        · exact le_trans (plainMinLoop_le p g valid rest _)
            (min_le_min (le_refl m) hpcs)
        · exact absurd (le_trans hbv (le_trans (min_le_right m _) hsa))
            (not_le.mpr hab)
        · exact absurd hav
            (not_lt.mpr (le_trans (min_le_right m _) hsa))
      · rw [if_neg hbreak]
        have hab' : a < min b (f (makeMove g (c : ℤ)).2 a b) :=
          not_le.mp hbreak
        rcases le_or_lt b (f (makeMove g (c : ℤ)).2 a b) with hbs | hsb
        · -- the child evaluation failed high: its exact value also lies
          -- above the unchanged beta
          have hspc : f (makeMove g (c : ℤ)).2 a b ≤ p (makeMove g (c : ℤ)).2 :=
            hf2 hbs
          have hbsb : min b (f (makeMove g (c : ℤ)).2 a b) = b :=
            min_eq_left hbs
          rw [hbsb]
          obtain ⟨ih1, ih2, ih3⟩ :=
            ih (min m (f (makeMove g (c : ℤ)).2 a b)) a b
              (le_min hm hbs) hab
          have hqq :
              plainMinLoop p g valid rest
                  (min m (f (makeMove g (c : ℤ)).2 a b)) ≤
                plainMinLoop p g valid rest
                  (min m (p (makeMove g (c : ℤ)).2)) :=
            plainMinLoop_mono p g valid rest _ _
              (min_le_min (le_refl m) hspc)
          refine ⟨fun hva => ?_, fun hbv => le_trans (ih2 hbv) hqq,
            fun hav hvb => ?_⟩
          · have hqv := ih1 hva
            rw [plainMinLoop_eq p g valid rest
              (min m (f (makeMove g (c : ℤ)).2 a b))] at hqv
            rcases min_le_iff.mp hqv with h | h
            · exact absurd (lt_of_lt_of_le hab
                (le_trans (le_min hm hbs) (h.trans hva)))
                (lt_irrefl a)
            · rw [plainMinLoop_eq p g valid rest
                (min m (p (makeMove g (c : ℤ)).2))]
              exact le_trans (min_le_right _ _) h
          · have hveq := ih3 hav hvb
            rw [plainMinLoop_eq p g valid rest
              (min m (f (makeMove g (c : ℤ)).2 a b))] at hveq
            have hma : abMin f g valid rest
                (min m (f (makeMove g (c : ℤ)).2 a b)) a b <
                min m (f (makeMove g (c : ℤ)).2 a b) :=
              lt_of_lt_of_le hvb (le_min hm hbs)
            have hvF : abMin f g valid rest
                (min m (f (makeMove g (c : ℤ)).2 a b)) a b =
                plainMinLoop p g valid rest ⊤ := by
              rcases min_cases (min m (f (makeMove g (c : ℤ)).2 a b))
                (plainMinLoop p g valid rest ⊤) with ⟨he, _⟩ | ⟨he, _⟩
              · rw [he] at hveq; exact absurd hveq (ne_of_lt hma)
              · rw [he] at hveq; exact hveq
            rw [plainMinLoop_eq p g valid rest
              (min m (p (makeMove g (c : ℤ)).2))]
            have h1 : min m (f (makeMove g (c : ℤ)).2 a b) ≤
                min m (p (makeMove g (c : ℤ)).2) :=
              min_le_min (le_refl m) hspc
            have h2 : plainMinLoop p g valid rest ⊤ ≤
                min m (p (makeMove g (c : ℤ)).2) :=
              le_trans (le_of_lt (lt_of_le_of_lt hvF.ge hma)) h1
            rw [min_eq_right h2]
            exact hvF
        · have has : a < f (makeMove g (c : ℤ)).2 a b :=
            lt_of_lt_of_le hab' (min_le_right b _)
          have hpceq : f (makeMove g (c : ℤ)).2 a b =
              p (makeMove g (c : ℤ)).2 := hf3 has hsb
          have hbsb : min b (f (makeMove g (c : ℤ)).2 a b) =
              f (makeMove g (c : ℤ)).2 a b := min_eq_right hsb.le
          have hmms : min m (f (makeMove g (c : ℤ)).2 a b) =
              f (makeMove g (c : ℤ)).2 a b :=
            min_eq_right (le_of_lt (lt_of_lt_of_le hsb hm))
          have hmpc : min m (p (makeMove g (c : ℤ)).2) =
              f (makeMove g (c : ℤ)).2 a b := by
            rw [← hpceq]; exact hmms
          rw [hbsb, hmms, hmpc]
          obtain ⟨ih1, ih2, ih3⟩ :=
            ih (f (makeMove g (c : ℤ)).2 a b) a (f (makeMove g (c : ℤ)).2 a b)
              (le_refl _) has
          refine ⟨fun hva => ih1 hva, fun hbv => ?_, fun hav hvb => ?_⟩
          · exact absurd (le_trans hbv (abMin_le f g valid rest _ a _))
              (not_le.mpr hsb)
          · rcases le_or_lt (f (makeMove g (c : ℤ)).2 a b)
              (abMin f g valid rest (f (makeMove g (c : ℤ)).2 a b) a
                (f (makeMove g (c : ℤ)).2 a b)) with hsv | hvs
            · have hvs' : abMin f g valid rest (f (makeMove g (c : ℤ)).2 a b)
                  a (f (makeMove g (c : ℤ)).2 a b) =
                  f (makeMove g (c : ℤ)).2 a b :=
                le_antisymm (abMin_le f g valid rest _ a _) hsv
              have hvq := ih2 hsv
              have hqs : plainMinLoop p g valid rest
                  (f (makeMove g (c : ℤ)).2 a b) ≤
                  f (makeMove g (c : ℤ)).2 a b :=
                plainMinLoop_le p g valid rest _
              exact le_antisymm hvq (hqs.trans hvs'.ge)
            · exact ih3 hav hvs
    · simp only [abMin, plainMinLoop, if_neg hc]
      exact ih m a b hm hab

theorem minimax_abRel (score : GState → ℕ → ℤ) :
    ∀ (d : ℕ) (g : GState) (isMax : Bool) (a b : XS), a < b →
      AbRel (minimax score d g isMax a b) (minimaxPlain score d g isMax)
        a b := by
  intro d
  induction d with
  | zero =>
    intro g isMax a b hab
    apply abRel_of_eq
    cases hw : checkWin g with
    | some w => simp [minimax, minimaxPlain, hw]
    | none =>
      by_cases hd : isDraw g = true
      · simp [minimax, minimaxPlain, hw, hd]
      · simp [minimax, minimaxPlain, hw, hd]
  | succ d ihd =>
    intro g isMax a b hab
    cases hw : checkWin g with
    | some w => apply abRel_of_eq; simp [minimax, minimaxPlain, hw]
    | none =>
      by_cases hd : isDraw g = true
      · apply abRel_of_eq; simp [minimax, minimaxPlain, hw, hd]
      · cases isMax with
        | true =>
          have h := abMax_spec (fun s a b => minimax score d s false a b)
            (fun s => minimaxPlain score d s false) g (getValidColumns g)
            (fun s a b hab => ihd s false a b hab) columnOrder ⊥ a b
            bot_le hab
          simpa [minimax, minimaxPlain, hw, hd] using h
        | false =>
          have h := abMin_spec (fun s a b => minimax score d s true a b)
            (fun s => minimaxPlain score d s true) g (getValidColumns g)
            (fun s a b hab => ihd s true a b hab) columnOrder ⊤ a b
            le_top hab
          simpa [minimax, minimaxPlain, hw, hd] using h

/-- C3: for every game state, depth bound, and side to move, minimax with
alpha-beta pruning called with the root window
`alpha = -infinity, beta = +infinity` (as `find_best_move` does) returns
exactly the same value as full unpruned minimax on the same state and
depth, for any position evaluator; pruning never changes the computed
score. -/
theorem c3_alphabeta_eq_unpruned_minimax (score : GState → ℕ → ℤ)
    (d : ℕ) (g : GState) (isMax : Bool) :
    minimax score d g isMax ⊥ ⊤ = minimaxPlain score d g isMax := by
  obtain ⟨h1, h2, h3⟩ :=
    minimax_abRel score d g isMax ⊥ ⊤ (by decide)
  rcases le_or_lt (minimax score d g isMax ⊥ ⊤) ⊥ with hv | hv
  · have hvb : minimax score d g isMax ⊥ ⊤ = ⊥ := le_bot_iff.mp hv
    have hq := h1 hv
    rw [hvb] at hq ⊢
    exact (le_bot_iff.mp hq).symm
  · rcases lt_or_le (minimax score d g isMax ⊥ ⊤) ⊤ with hv2 | hv2
    · exact h3 hv hv2
    · have hvt : minimax score d g isMax ⊥ ⊤ = ⊤ := top_le_iff.mp hv2
      have hq := h2 hv2
      rw [hvt] at hq ⊢
      exact (top_le_iff.mp hq).symm

/-! ## Lemmas: the gravity invariant of reachable states -/

theorem openRowScan_spec (g : GState) (col : ℕ) :
    ∀ n r, openRowScan g col n = some r →
      r < n ∧ g.board r col = 0 ∧
        ∀ r', r < r' → r' < n → g.board r' col ≠ 0 := by
  intro n
  induction n with
  | zero => intro r h; simp [openRowScan] at h
  | succ n ih =>
    intro r h
    simp only [openRowScan] at h
    by_cases hb : g.board n col = 0
    · rw [if_pos hb] at h
      obtain rfl : n = r := by simpa using h
      exact ⟨Nat.lt_succ_self _, hb, fun r' h1 h2 => absurd h2 (by omega)⟩
    · rw [if_neg hb] at h
      obtain ⟨h1, h2, h3⟩ := ih r h
      refine ⟨Nat.lt_succ_of_lt h1, h2, fun r' hr1 hr2 => ?_⟩
      rcases Nat.lt_succ_iff_lt_or_eq.mp hr2 with hlt | rfl
      · exact h3 r' hr1 hlt
      · exact hb

theorem openRowScan_isSome (g : GState) (col : ℕ)
    (h : g.board 0 col = 0) :
    ∀ n, 0 < n → (openRowScan g col n).isSome = true := by
  intro n
  induction n with
  | zero => intro h0; exact absurd h0 (lt_irrefl 0)
  | succ n ih =>
    intro _
    simp only [openRowScan]
    by_cases hb : g.board n col = 0
    · rw [if_pos hb]; rfl
    · rw [if_neg hb]
      have hn : 0 < n := by
        rcases Nat.eq_zero_or_pos n with rfl | hn
        · exact absurd h hb
        · exact hn
      exact ih hn

/-- `make_move` either leaves the state unchanged (returning false) or,
when the column is valid and an open row exists, produces exactly the
updated state (returning true). -/
theorem makeMove_cases (g : GState) (col : ℤ) :
    makeMove g col = (false, g) ∨
      ∃ row, isValidMove g col = true ∧
        getNextOpenRow g col.toNat = some row ∧
        makeMove g col = (true,
          { g with
            board := fun r c =>
              if r = row ∧ c = col.toNat then g.current else g.board r c,
            lastMove := some (row, col.toNat),
            moveCount := g.moveCount + 1,
            current := if g.current = 1 then 2 else 1 }) := by
  by_cases hv : isValidMove g col = true
  · cases hrow : getNextOpenRow g col.toNat with
    | none => left; simp [makeMove, hv, hrow]
    | some row =>
      right
      refine ⟨row, hv, rfl, ?_⟩
      simp [makeMove, hv, hrow]
  · have hv' : isValidMove g col = false := by
      simpa using hv
    left; simp [makeMove, hv']

/-- The combined invariant of the reachable states: the current player is
ONE or TWO and no piece floats. -/
theorem reachable_invariant (g : GState) (h : Reachable g) :
    (g.current = 1 ∨ g.current = 2) ∧ Gravity g := by
  induction h with
  | init rows cols =>
    exact ⟨Or.inl rfl, fun r c r' hne _ _ => absurd rfl hne⟩
  | reset g _ _ =>
    exact ⟨Or.inl rfl, fun r c r' hne _ _ => absurd rfl hne⟩
  | copy g _ ih => exact ih
  | move g col _ ih =>
    obtain ⟨ihcur, ihgrav⟩ := ih
    rcases makeMove_cases g col with hm | ⟨row, hv, hrow, hm⟩
    · rw [hm]; exact ⟨ihcur, ihgrav⟩
    · rw [hm]
      constructor
      · by_cases h1 : g.current = 1
        · right; simp [h1]
        · left; simp [h1]
      · obtain ⟨hlt, hempty, habove⟩ :=
          openRowScan_spec g col.toNat g.rows row hrow
        intro r c r' hne hrr' hr'
        simp only at hne hr' ⊢
        by_cases hr'row : r' = row ∧ c = col.toNat
        · -- the cell below is the freshly placed piece
          rw [if_pos hr'row]
          rcases ihcur with h1 | h1 <;> simp [h1]
        · rw [if_neg hr'row]
          by_cases hrrow : r = row ∧ c = col.toNat
          · -- the occupied cell is the new piece: everything below it in
            -- this column was already occupied (the scan stopped here)
            obtain ⟨hr1, hc1⟩ := hrrow
            subst hr1; subst hc1
            exact habove r' hrr' hr'
          · rw [if_neg hrrow] at hne
            exact ihgrav r c r' hne hrr' hr'

/-- C9: every board reachable from the initial empty board by any
sequence of `make_move` (and `reset`/`copy`) operations satisfies the
gravity invariant: every non-empty cell has non-empty cells in every row
below it in its column. -/
theorem c9_reachable_gravity (g : GState) (h : Reachable g) : Gravity g :=
  (reachable_invariant g h).2

theorem c9_witness : Reachable sC1 ∧ Gravity sC1 := by
  have hr : Reachable sC1 :=
    Reachable.move _ 3 (Reachable.move _ 0 (Reachable.move _ 6
      (Reachable.move _ 0 (Reachable.move _ 6 (Reachable.move _ 0
        (Reachable.move _ 6 (Reachable.init 6 7)))))))
  exact ⟨hr, c9_reachable_gravity sC1 hr⟩

/-- C4 counterexample: in the reachable state `sLoss` ONE has four in a
row, so the game is over, yet `make_move` into the open column 2 returns
true and mutates the state — the claim's "returns false whenever the game
is already over, leaving the state unchanged" is false on the code. -/
theorem c4_counterexample :
    isGameOver sLoss = true ∧ (makeMove sLoss 2).1 = true ∧
      (makeMove sLoss 2).2.moveCount ≠ sLoss.moveCount := by decide

theorem isValidMove_board (g : GState) (col : ℤ)
    (hv : isValidMove g col = true) : g.board 0 col.toNat = 0 := by
  simp only [isValidMove, Bool.and_eq_true, beq_iff_eq] at hv
  exact hv.2

/-- C4 amended: on a board with at least one row, `make_move` succeeds
exactly on the valid columns (in range and not full) — the game-over
state is never consulted; on failure it returns false and leaves the
whole state unchanged, and on success it places the mover's piece in the
lowest open row, records the move, advances the counter and flips the
player. -/
theorem c4_makeMove_amended (g : GState) (col : ℤ) (hrows : 0 < g.rows) :
    (makeMove g col).1 = isValidMove g col ∧
    (isValidMove g col = false → (makeMove g col).2 = g) ∧
    (isValidMove g col = true → ∃ row,
      getNextOpenRow g col.toNat = some row ∧
      (makeMove g col).2.board row col.toNat = g.current ∧
      (makeMove g col).2.moveCount = g.moveCount + 1 ∧
      (makeMove g col).2.lastMove = some (row, col.toNat) ∧
      (makeMove g col).2.current = (if g.current = 1 then 2 else 1) ∧
      ∀ r c, ¬(r = row ∧ c = col.toNat) →
        (makeMove g col).2.board r c = g.board r c) := by
  rcases makeMove_cases g col with hm | ⟨row, hv, hrow, hm⟩
  · by_cases hv : isValidMove g col = true
    · exfalso
      have hb : g.board 0 col.toNat = 0 := isValidMove_board g col hv
      have hsome := openRowScan_isSome g col.toNat hb g.rows hrows
      cases hrowcase : getNextOpenRow g col.toNat with
      | none =>
        rw [getNextOpenRow] at hrowcase
        rw [hrowcase] at hsome
        exact absurd hsome (by simp)
      | some row =>
        have htrue : (makeMove g col).1 = true := by
          simp [makeMove, hv, hrowcase]
        rw [hm] at htrue
        exact absurd htrue (by simp)
    · have hv' : isValidMove g col = false := by simpa using hv
      rw [hm, hv']
      exact ⟨rfl, fun _ => rfl, fun ht => absurd ht (by simp [hv'])⟩
  · refine ⟨?_, ?_, ?_⟩
    · rw [hm, hv]
    · intro hf
      rw [hv] at hf
      exact absurd hf (by decide)
    · intro _
      rw [hm]
      exact ⟨row, hrow, by simp, rfl, rfl, rfl,
        fun r c hne => by simp only [if_neg hne]⟩

theorem c4_witness :
    0 < g0.rows ∧ (makeMove g0 3).1 = isValidMove g0 3 :=
  ⟨by decide, (c4_makeMove_amended g0 3 (by decide)).1⟩

/-- C8 counterexample: in the reachable state `sLoss` the game is over
(ONE has four in a row) but `get_valid_columns` does not return the
empty sequence. -/
theorem c8_counterexample :
    isGameOver sLoss = true ∧ getValidColumns sLoss ≠ [] := by decide

/-- C8 amended: `get_valid_columns` never consults the game-over state;
it is empty exactly when the top cell of every column is occupied, i.e.
when the board is completely full. -/
theorem c8_getValidColumns_empty_iff (g : GState) :
    getValidColumns g = [] ↔
      (List.range g.cols).all (fun c => g.board 0 c != 0) = true := by
  unfold getValidColumns
  rw [List.filter_eq_nil_iff, List.all_eq_true]
  constructor
  · intro h c hc
    have hcc := List.mem_range.mp hc
    have := h c hc
    simp [isValidMove, hcc] at this ⊢
    exact this
  · intro h c hc
    have hcc := List.mem_range.mp hc
    have := h c hc
    simp [isValidMove, hcc] at this ⊢
    exact this

/-- C7 counterexample: a reading exactly equal to the default threshold
75.0 satisfies the claim's `t >= threshold` but `is_overheating` reports
false — the source compares with strict `>`. -/
theorem c7_counterexample :
    isOverheating { highTempThreshold := 75 } 75 = false ∧
      (75 : ℚ) ≥ 75 := by
  constructor
  · simp [isOverheating]
  · exact le_refl _

/-- C7 amended: for every temperature reading `t` and configured
threshold, `is_overheating()` returns true if and only if `t` is strictly
greater than the threshold; a reading exactly equal to the threshold does
NOT count as overheating. -/
theorem c7_isOverheating_iff (m : ThermalMonitor) (t : ℚ) :
    isOverheating m t = true ↔ m.highTempThreshold < t := by
  simp [isOverheating]

/-- C2, evaluated at the failing input: in the reachable recursion state
`sLoss` the opponent (ONE) of the maximizing player (TWO, the side to
move at this maximizing node) has four in a row, yet `_minimax` returns
the large POSITIVE score 1000000 — the winner test
`winner.value == 3 - game.current_player.value` holds for any just-moved
winner, including the minimizer. -/
theorem c2_opponent_win_scored_positive :
    checkWin sLoss = some 1 ∧ sLoss.current = 2 ∧
      minimax scorePositionFull 2 sLoss true ⊥ ⊤ = toXS 1000000 ∧
      ¬ minimax scorePositionFull 2 sLoss true ⊥ ⊤ < toXS 0 := by decide

/-- C6 counterexample: in `sWin` the maximizing player TWO has four in a
row; `_minimax` returns 1000000 at remaining depth 0 and at remaining
depth 3 alike — the win score does not decrease with the search depth
consumed, it is the same constant at every depth. -/
theorem c6_counterexample :
    checkWin sWin = some 2 ∧ sWin.current = 1 ∧
      minimax scorePositionFull 0 sWin false ⊥ ⊤ = toXS 1000000 ∧
      minimax scorePositionFull 3 sWin false ⊥ ⊤ = toXS 1000000 := by decide

/-- C6 amended: whenever the detected winner is the player who just
moved (the opponent of the side to move), `_minimax` returns the constant
large positive score 1000000, independent of the remaining depth, the
node type, and the alpha/beta window: there is no preference between
shallower and deeper wins. -/
theorem c6_win_score_constant (score : GState → ℕ → ℤ) (d : ℕ)
    (g : GState) (isMax : Bool) (a b : XS) (w : ℕ)
    (hw : checkWin g = some w) (hcur : (w : ℤ) = 3 - (g.current : ℤ)) :
    minimax score d g isMax a b = toXS 1000000 := by
  cases d <;> simp [minimax, hw, hcur]

theorem c6_witness :
    checkWin sWin = some 2 ∧
      minimax scorePositionFull 5 sWin false ⊥ ⊤ = toXS 1000000 :=
  ⟨by decide, c6_win_score_constant scorePositionFull 5 sWin false ⊥ ⊤ 2
    (by decide) (by decide)⟩

/-- C5: on each move request the Thermal-Aware Selector consumes exactly
one monitor reading (the query counter advances by one) and delegates the
entire move computation to exactly one engine — the reduced-depth one
when `is_overheating()` is true, the standard one otherwise; the move is
computed by that single engine with its single configured depth. -/
theorem c5_thermal_selector_delegates (ai : ThermalAwareAI)
    (temps : ℕ → ℚ) (n : ℕ) (g : GState) (shuffled : List ℕ) :
    thermalFindBestMove ai temps n g shuffled =
      (engineFindBestMove
        (if isOverheating ai.thermalMonitor (temps n) = true then ai.limitedAI
          else ai.standardAI) g shuffled, n + 1) := rfl

/-- C1, evaluated at the failing input: in `sC1` the side to move (TWO)
has exactly one immediately winning column, 0, but the Aggressive/HardAI
`find_best_move` returns column 6 instead: its immediate-win check
compares `check_win()` with `Player(3 - game.current_player.value)` —
the opponent of the mover — so it never fires on the mover's own winning
move, and the block check answers first. -/
theorem c1_immediate_win_not_taken :
    winningColumns sC1 = [0] ∧
      hardFindBestMove sC1 [0, 1, 2, 3, 4, 5, 6] = 6 ∧
      mediumFindBestMove sC1 1 [0, 1, 2, 3, 4, 5, 6] = 6 ∧
      easyFindBestMove sC1 (fun _ => 0) 0 [0, 1, 2, 3, 4, 5, 6] = 6 := by
  decide

/-! ## Lemmas: every engine returns a legal column -/

theorem fbmLoop_result (score : GState → ℕ → ℤ) (maxDepth : ℕ)
    (g : GState) (valid : List ℕ) :
    ∀ (cols : List ℕ) (bestScore : XS) (best : ℤ),
      fbmLoop score maxDepth g valid cols bestScore best = best ∨
        ∃ k : ℕ, k ∈ valid ∧
          fbmLoop score maxDepth g valid cols bestScore best = (k : ℤ) := by
  intro cols
  induction cols with
  | nil => intro bs best; left; simp [fbmLoop]
  | cons c rest ih =>
    intro bs best
    simp only [fbmLoop]
    by_cases hc : c ∈ valid
    · rw [if_pos hc]
      by_cases hw :
          (checkWin (makeMove g (c : ℤ)).2 == some (3 - g.current)) = true
      · rw [if_pos hw]; right; exact ⟨c, hc, rfl⟩
      · rw [if_neg hw]
        by_cases hs : bs <
            minimax score (maxDepth - 1) (makeMove g (c : ℤ)).2 false ⊥ ⊤
        · rw [if_pos hs]
          rcases ih _ (c : ℤ) with h | h
          · right; exact ⟨c, hc, h⟩
          · right; exact h
        · rw [if_neg hs]; exact ih _ _
    · rw [if_neg hc]; exact ih _ _

theorem findBestMove_mem (score : GState → ℕ → ℤ) (maxDepth : ℕ)
    (g : GState) (shuffled : List ℕ) (hne : shuffled ≠ []) :
    ∃ k : ℕ, k ∈ shuffled ∧
      findBestMove score maxDepth g shuffled = (k : ℤ) := by
  cases shuffled with
  | nil => exact absurd rfl hne
  | cons c0 rest =>
    simp only [findBestMove]
    rcases fbmLoop_result score maxDepth g (c0 :: rest) columnOrder ⊥
      (c0 : ℤ) with h | ⟨k, hk, h⟩
    · exact ⟨c0, List.mem_cons_self c0 rest, h⟩
    · exact ⟨k, hk, h⟩

theorem findWinningMove_mem (g : GState) (valid : List ℕ) (c : ℕ)
    (h : findWinningMove g valid = some c) : c ∈ valid :=
  List.mem_of_find?_eq_some h

theorem findBlockingMove_mem (g : GState) (opp : ℕ) (valid : List ℕ)
    (c : ℕ) (h : findBlockingMove g opp valid = some c) : c ∈ valid :=
  List.mem_of_find?_eq_some h

theorem easyBlockLoop_mem (g : GState) (opp : ℕ) (rolls : ℕ → ℚ) :
    ∀ (cols : List ℕ) (k : ℕ) (c : ℕ) (k' : ℕ),
      easyBlockLoop g opp rolls cols k = (some c, k') → c ∈ cols := by
  intro cols
  induction cols with
  | nil => intro k c k' h; simp [easyBlockLoop] at h
  | cons x rest ih =>
    intro k c k' h
    simp only [easyBlockLoop] at h
    by_cases h1 :
        (checkWin (makeMove (setCurrent g opp) (x : ℤ)).2 == some opp) = true
    · rw [if_pos h1] at h
      by_cases h2 : rolls k < mkRat 4 5
      · rw [if_pos h2] at h
        obtain ⟨h3, -⟩ := Prod.mk.injEq _ _ _ _ ▸ h
        obtain rfl : x = c := by simpa using h3
        exact List.mem_cons_self _ _
      · rw [if_neg h2] at h
        exact List.mem_cons_of_mem _ (ih _ _ _ h)
    · rw [if_neg h1] at h
      exact List.mem_cons_of_mem _ (ih _ _ _ h)

theorem getD_mod_mem (l : List ℕ) (i : ℕ) (h : l ≠ []) :
    l.getD (i % l.length) 0 ∈ l := by
  have hlen : i % l.length < l.length :=
    Nat.mod_lt _ (List.length_pos.mpr h)
  rw [List.getD_eq_getElem?_getD, List.getElem?_eq_getElem hlen]
  exact List.getElem_mem hlen

theorem mediumFilteredMoves_subset (g : GState) (valid : List ℕ) :
    ∀ c, c ∈ mediumFilteredMoves g valid → c ∈ valid := by
  unfold mediumFilteredMoves
  have key : ∀ (cols vm : List ℕ), (∀ c, c ∈ vm → c ∈ valid) →
      ∀ c, c ∈ cols.foldl (mediumFilterStep g) vm → c ∈ valid := by
    intro cols
    induction cols with
    | nil => intro vm hvm c hc; exact hvm c hc
    | cons x rest ih =>
      intro vm hvm c hc
      refine ih (mediumFilterStep g vm x) ?_ c hc
      intro d hd
      simp only [mediumFilterStep] at hd
      split_ifs at hd
      · exact hvm d hd
      · exact hvm d (List.mem_of_mem_filter hd)
      · exact hvm d hd
  exact key valid valid (fun c hc => hc)

theorem hardBlockForkInner_mem (gc : GState) (opp : ℕ)
    (validMoves : List ℕ) (oc : ℕ)
    (h : hardBlockForkInner gc opp validMoves = some oc) :
    oc ∈ validMoves := by
  unfold hardBlockForkInner at h
  obtain ⟨a, -, hf⟩ := List.exists_of_findSome?_eq_some h
  dsimp only at hf
  split_ifs at hf with h1 h2
  · obtain rfl : a = oc := by simpa using hf
    exact h2.2

theorem getD_mem_of_lt {α : Type _} (l : List α) (i : ℕ) (d : α)
    (h : i < l.length) : l.getD i d ∈ l := by
  rw [List.getD_eq_getElem?_getD, List.getElem?_eq_getElem h]
  exact List.getElem_mem h

theorem perm_ne_nil {l l' : List ℕ} (h : l.Perm l') (hne : l' ≠ []) :
    l ≠ [] := by
  intro hl
  rw [hl] at h
  exact hne (List.Perm.eq_nil h.symm)

theorem easyFindBestMove_mem (g : GState) (rolls : ℕ → ℚ)
    (choiceIdx : ℕ) (shuffled : List ℕ)
    (hsh : shuffled.Perm (getValidColumns g))
    (hne : getValidColumns g ≠ []) :
    ∃ k : ℕ, k ∈ getValidColumns g ∧
      easyFindBestMove g rolls choiceIdx shuffled = (k : ℤ) := by
  have hshne : shuffled ≠ [] := perm_ne_nil hsh hne
  have hempty : (getValidColumns g).isEmpty = false := by
    cases hval : getValidColumns g with
    | nil => exact absurd hval hne
    | cons a t => rfl
  simp only [easyFindBestMove, hempty, Bool.false_eq_true, if_false]
  cases hw : findWinningMove g (getValidColumns g) with
  | some c => exact ⟨c, findWinningMove_mem g _ c hw, rfl⟩
  | none =>
    cases hb : easyBlockLoop g (opponentOf g) rolls (getValidColumns g) 0 with
    | mk o k =>
      cases o with
      | some c =>
        exact ⟨c, easyBlockLoop_mem g _ rolls _ 0 c k hb, rfl⟩
      | none =>
        dsimp only
        by_cases hr : rolls k < mkRat 1 5
        · rw [if_pos hr]
          exact ⟨_, getD_mod_mem _ choiceIdx hne, rfl⟩
        · rw [if_neg hr]
          obtain ⟨k', hk', he⟩ :=
            findBestMove_mem scorePositionEasy 2 g shuffled hshne
          exact ⟨k', hsh.mem_iff.mp hk', he⟩

theorem mediumFindBestMove_mem (g : GState) (roll : ℚ)
    (shuffled : List ℕ) (hsh : shuffled.Perm (getValidColumns g))
    (hne : getValidColumns g ≠ []) :
    ∃ k : ℕ, k ∈ getValidColumns g ∧
      mediumFindBestMove g roll shuffled = (k : ℤ) := by
  have hshne : shuffled ≠ [] := perm_ne_nil hsh hne
  have hempty : (getValidColumns g).isEmpty = false := by
    cases hval : getValidColumns g with
    | nil => exact absurd hval hne
    | cons a t => rfl
  simp only [mediumFindBestMove, hempty, Bool.false_eq_true, if_false]
  cases hw : findWinningMove g (getValidColumns g) with
  | some c => exact ⟨c, findWinningMove_mem g _ c hw, rfl⟩
  | none =>
    cases hbk : findBlockingMove g (opponentOf g) (getValidColumns g) with
    | some c => exact ⟨c, findBlockingMove_mem g _ _ c hbk, rfl⟩
    | none =>
      cases ht : mediumTrapLoop g (getValidColumns g) with
      | some c =>
        refine ⟨c, ?_, rfl⟩
        unfold mediumTrapLoop at ht
        exact List.mem_of_find?_eq_some ht
      | none =>
        dsimp only
        by_cases hr : roll < mkRat 2 25 ∧
            1 < (mediumFilteredMoves g (getValidColumns g)).length
        · rw [if_pos hr]
          by_cases hs : 2 ≤ (((mediumFilteredMoves g
              (getValidColumns g)).map fun c =>
                ((c, minimax scorePositionMedium 3 (makeMove g (c : ℤ)).2
                  false ⊥ ⊤) : ℕ × XS)).mergeSort
                (fun x y => decide (y.2 ≤ x.2))).length
          · rw [if_pos hs]
            have hlt : 1 < (((mediumFilteredMoves g
                (getValidColumns g)).map fun c =>
                  ((c, minimax scorePositionMedium 3 (makeMove g (c : ℤ)).2
                    false ⊥ ⊤) : ℕ × XS)).mergeSort
                  (fun x y => decide (y.2 ≤ x.2))).length := hs
            have hmem := getD_mem_of_lt _ 1 ((0 : ℕ), (⊥ : XS)) hlt
            have hmem2 := (List.mergeSort_perm
              ((mediumFilteredMoves g (getValidColumns g)).map fun c =>
                ((c, minimax scorePositionMedium 3 (makeMove g (c : ℤ)).2
                  false ⊥ ⊤) : ℕ × XS))
              (fun (x y : ℕ × XS) => decide (y.2 ≤ x.2))).mem_iff.mp hmem
            obtain ⟨c, hc, hceq⟩ := List.mem_map.mp hmem2
            refine ⟨c, mediumFilteredMoves_subset g _ c hc, ?_⟩
            rw [← hceq]
          · rw [if_neg hs]
            obtain ⟨k', hk', he⟩ :=
              findBestMove_mem scorePositionMedium 4 g shuffled hshne
            exact ⟨k', hsh.mem_iff.mp hk', he⟩
        · rw [if_neg hr]
          obtain ⟨k', hk', he⟩ :=
            findBestMove_mem scorePositionMedium 4 g shuffled hshne
          exact ⟨k', hsh.mem_iff.mp hk', he⟩

theorem hardFindBestMove_mem (g : GState) (shuffled : List ℕ)
    (hsh : shuffled.Perm (getValidColumns g))
    (hne : getValidColumns g ≠ []) :
    ∃ k : ℕ, k ∈ getValidColumns g ∧
      hardFindBestMove g shuffled = (k : ℤ) := by
  have hshne : shuffled ≠ [] := perm_ne_nil hsh hne
  have hempty : (getValidColumns g).isEmpty = false := by
    cases hval : getValidColumns g with
    | nil => exact absurd hval hne
    | cons a t => rfl
  simp only [hardFindBestMove, hempty, Bool.false_eq_true, if_false]
  cases hw : findWinningMove g (getValidColumns g) with
  | some c => exact ⟨c, findWinningMove_mem g _ c hw, rfl⟩
  | none =>
    cases hbk : findBlockingMove g (opponentOf g) (getValidColumns g) with
    | some c => exact ⟨c, findBlockingMove_mem g _ _ c hbk, rfl⟩
    | none =>
      cases hfk : (getValidColumns g).find? (fun c => hardForkCheck g c) with
      | some c => exact ⟨c, List.mem_of_find?_eq_some hfk, rfl⟩
      | none =>
        cases hbf : (getValidColumns g).findSome? (fun c =>
            hardBlockForkInner (makeMove g (c : ℤ)).2 (opponentOf g)
              (getValidColumns g)) with
        | some oc =>
          refine ⟨oc, ?_, rfl⟩
          obtain ⟨a, -, hf⟩ := List.exists_of_findSome?_eq_some hbf
          exact hardBlockForkInner_mem _ _ _ oc hf
        | none =>
          cases hsort : ((getValidColumns g).map fun c =>
              ((c, minimax scorePositionHard 5 (makeMove g (c : ℤ)).2
                false ⊥ ⊤) : ℕ × XS)).mergeSort
              (fun x y => decide (y.2 ≤ x.2)) with
          | nil =>
            obtain ⟨k', hk', he⟩ :=
              findBestMove_mem scorePositionHard 6 g shuffled hshne
            exact ⟨k', hsh.mem_iff.mp hk', he⟩
          | cons p tail =>
            have hmem : p ∈ ((getValidColumns g).map fun c =>
                ((c, minimax scorePositionHard 5 (makeMove g (c : ℤ)).2
                  false ⊥ ⊤) : ℕ × XS)).mergeSort
                (fun x y => decide (y.2 ≤ x.2)) := by
              rw [hsort]; exact List.mem_cons_self p tail
            have hmem2 := (List.mergeSort_perm
              ((getValidColumns g).map fun c =>
                ((c, minimax scorePositionHard 5 (makeMove g (c : ℤ)).2
                  false ⊥ ⊤) : ℕ × XS))
              (fun (x y : ℕ × XS) => decide (y.2 ≤ x.2))).mem_iff.mp hmem
            obtain ⟨c, hc, hceq⟩ := List.mem_map.mp hmem2
            cases p with
            | mk c0 s0 =>
              obtain rfl : c = c0 := congrArg Prod.fst hceq
              exact ⟨c, hc, rfl⟩

/-- C10: on every game state whose current player is ONE or TWO (the
domain of the Python `Player` enum) with at least one non-full column,
`find_best_move` of the base `MinimaxEngine` (any evaluator and depth)
and of every difficulty variant returns a legal column — an element of
`get_valid_columns`, hence in range and not full — for every outcome of
the internal `random` calls (`shuffled`/`rolls`/`choiceIdx`/`roll`); in
particular the result is never `-1` while a column is open, even when a
player has already won, and `-1` is returned only when every column is
full. -/
theorem c10_every_engine_returns_legal_column (g : GState)
    (score : GState → ℕ → ℤ) (maxDepth : ℕ) (sh1 sh2 sh3 sh4 : List ℕ)
    (rolls : ℕ → ℚ) (choiceIdx : ℕ) (roll : ℚ)
    (_hcur : g.current = 1 ∨ g.current = 2)
    (h1 : sh1.Perm (getValidColumns g)) (h2 : sh2.Perm (getValidColumns g))
    (h3 : sh3.Perm (getValidColumns g))
    (h4 : sh4.Perm (getValidColumns g))
    (hne : getValidColumns g ≠ []) :
    (∃ k : ℕ, k ∈ getValidColumns g ∧
      findBestMove score maxDepth g sh1 = (k : ℤ)) ∧
    (∃ k : ℕ, k ∈ getValidColumns g ∧
      easyFindBestMove g rolls choiceIdx sh2 = (k : ℤ)) ∧
    (∃ k : ℕ, k ∈ getValidColumns g ∧
      mediumFindBestMove g roll sh3 = (k : ℤ)) ∧
    (∃ k : ℕ, k ∈ getValidColumns g ∧
      hardFindBestMove g sh4 = (k : ℤ)) := by
  refine ⟨?_, easyFindBestMove_mem g rolls choiceIdx sh2 h2 hne,
    mediumFindBestMove_mem g roll sh3 h3 hne,
    hardFindBestMove_mem g sh4 h4 hne⟩
  obtain ⟨k, hk, he⟩ :=
    findBestMove_mem score maxDepth g sh1 (perm_ne_nil h1 hne)
  exact ⟨k, h1.mem_iff.mp hk, he⟩

theorem c10_witness :
    ((newGame 6 7).current = 1 ∨ (newGame 6 7).current = 2) ∧
      ([3, 2, 4, 1, 5, 0, 6].Perm (getValidColumns (newGame 6 7))) ∧
      getValidColumns (newGame 6 7) ≠ [] ∧
      (∃ k : ℕ, k ∈ getValidColumns (newGame 6 7) ∧
        findBestMove scorePositionFull 1 (newGame 6 7)
          [3, 2, 4, 1, 5, 0, 6] = (k : ℤ)) :=
  ⟨by decide, by decide, by decide,
    (c10_every_engine_returns_legal_column (newGame 6 7) scorePositionFull 1
      [3, 2, 4, 1, 5, 0, 6] [3, 2, 4, 1, 5, 0, 6] [3, 2, 4, 1, 5, 0, 6]
      [3, 2, 4, 1, 5, 0, 6] (fun _ => 0) 0 0 (by decide) (by decide)
      (by decide) (by decide) (by decide) (by decide)).1⟩

end ConnectFour



